import Mathlib

/-!
Verification of the streaming buffer bridge and device-capability layer of
gr-osmosdr (the `bladerf_source_c` and `hackrf_source_c` backends).

The embedding follows the two source files:
* `bladerf_source_c.cc` — a linear FIFO of decoded complex samples shared
  between a reader thread (`read_task`) and the scheduler-driven `work`.
* `hackrf_source_c.cc` — a ring of fixed slabs filled by the libhackrf RX
  callback and drained by `work`, plus the control-plane setters.

Samples are modelled abstractly (any type `α`) where only ordering matters,
and as exact rationals `ℚ` where the C code computes with `double`/`float`
(every concrete value the claims mention is exactly representable).
-/

namespace BladeRF

/-- Events seen by a consumer blocked inside `bladerf_source_c::work`'s wait
loop.  A `push s` event is one iteration of `read_task` appending the decoded
samples `s` to `sample_fifo` (lines 228-240) and, when `to_copy` is nonzero,
calling `samples_available.notify_one()` (lines 245-247).  A `stop` event is
`set_running(false)` (destructor, line 177): it touches no fifo state and —
as in the source — performs no notification of `samples_available`. -/
inductive Ev (α : Type) where
  | push (s : List α)
  | stop
deriving DecidableEq

/-- Samples delivered by the producer over a list of events, in push order. -/
def arrived {α : Type} : List (Ev α) → List α
  | [] => []
  | Ev.push s :: rest => s ++ arrived rest
  | Ev.stop :: rest => arrived rest

/-- The wait loop of `bladerf_source_c::work` (part_000 lines 273-284):
`while (n_samples_avail < noutput_items) { samples_available.wait(lock);
n_samples_avail = sample_fifo->size(); }` followed by popping exactly
`noutput_items` samples from the front of the fifo.  The consumer re-checks
the fifo size after each wake; a wake happens only at a producer push.  The
result `none` means the consumer is still blocked after all events of the
trace have happened (no further wake arrives). -/
def waitForSamples {α : Type} (n : Nat) : List (Ev α) → List α → Option (List α × List α)
  | evs, fifo =>
    if n ≤ fifo.length then
      some (fifo.take n, fifo.drop n)
    else
      match evs with
      | [] => none
      | Ev.push s :: rest => waitForSamples n rest (fifo ++ s)
      | Ev.stop :: rest => waitForSamples n rest fifo

/-- Result of one `work` call. -/
inductive WorkRes (α : Type) where
  | done
  | produced (out : List α) (fifo : List α)
deriving DecidableEq

/-- Function `bladerf_source_c::work` (part_000 lines 260-290): if the device
is no longer running it returns `WORK_DONE`; otherwise it blocks until
`noutput_items` samples are in the fifo and pops exactly that many from the
front.  `running` is the `is_running()` check at entry (line 266). -/
def work {α : Type} (running : Bool) (n : Nat) (evs : List (Ev α)) (fifo : List α) :
    Option (WorkRes α) :=
  if running = false then
    some WorkRes.done
  else
    match waitForSamples n evs fifo with
    | some (out, rest) => some (WorkRes.produced out rest)
    | none => none

end BladeRF

namespace BladeRF

theorem waitForSamples_spec {α : Type} (n : Nat) (evs : List (Ev α)) (fifo : List α) :
    (∀ out rest, waitForSamples n evs fifo = some (out, rest) →
        out.length = n ∧ out = (fifo ++ arrived evs).take n) ∧
    ((fifo ++ arrived evs).length < n → waitForSamples n evs fifo = none) := by
  induction evs generalizing fifo with
  | nil =>
    refine ⟨?_, ?_⟩
    · intro out rest h
      rw [waitForSamples.eq_def] at h
      by_cases hn : n ≤ fifo.length
      · simp only [hn, if_pos] at h
        obtain ⟨h1, _⟩ := Prod.mk.injEq .. ▸ Option.some.injEq .. ▸ h
        constructor
        · subst h1; simp [List.length_take, Nat.min_eq_left hn]
        · subst h1; simp [arrived]
      · simp [hn] at h
    · intro hlt
      rw [waitForSamples.eq_def]
      have : ¬ n ≤ fifo.length := by
        simp only [arrived, List.append_nil] at hlt
        omega
      simp [this]
  | cons e rest ih =>
    refine ⟨?_, ?_⟩
    · intro out fifoRest h
      rw [waitForSamples.eq_def] at h
      by_cases hn : n ≤ fifo.length
      · simp only [hn, if_pos] at h
        obtain ⟨h1, _⟩ := Prod.mk.injEq .. ▸ Option.some.injEq .. ▸ h
        constructor
        · subst h1; simp [List.length_take, Nat.min_eq_left hn]
        · subst h1
          rw [List.take_append_of_le_length hn]
      · simp only [hn, if_neg, if_false] at h
        cases e with
        | push s =>
          have := (ih (fifo ++ s)).1 out fifoRest h
          refine ⟨this.1, ?_⟩
          rw [this.2, arrived, ← List.append_assoc]
        | stop =>
          have := (ih fifo).1 out fifoRest h
          refine ⟨this.1, ?_⟩
          rw [this.2, arrived]
    · intro hlt
      rw [waitForSamples.eq_def]
      cases e with
      | push s =>
        have harr : (fifo ++ arrived (Ev.push s :: rest)).length
            = ((fifo ++ s) ++ arrived rest).length := by
          simp [arrived, List.length_append]
        have hfifo : ¬ n ≤ fifo.length := by
          have := hlt
          simp only [List.length_append] at this ⊢
          omega
        simp only [hfifo, if_neg, if_false]
        exact (ih (fifo ++ s)).2 (by rw [← harr]; exact hlt)
      | stop =>
        have harr : arrived (Ev.stop :: (rest : List (Ev α))) = arrived rest := by
          simp [arrived]
        have hfifo : ¬ n ≤ fifo.length := by
          simp only [List.length_append] at hlt
          omega
        simp only [hfifo, if_neg, if_false]
        exact (ih fifo).2 (by rw [← harr] at *; exact hlt)

/-- C1: on a live (non-terminated) stream, `bladerf_source_c::work` returns
exactly `n` samples in producer push order, re-checking availability after
each wake until `n` samples have accumulated, possibly across multiple
producer pushes; a partial count (and `WORK_DONE`) is never returned while
the stream is live, and while fewer than `n` samples have arrived the call
stays blocked (`none`). -/
theorem work_pulls_exactly_n_in_push_order {α : Type} (n : Nat) (evs : List (Ev α))
    (fifo : List α) :
    (∀ out rest, work true n evs fifo = some (WorkRes.produced out rest) →
        out.length = n ∧ out = (fifo ++ arrived evs).take n) ∧
    (∀ r, work true n evs fifo = some r → r ≠ WorkRes.done) ∧
    ((fifo ++ arrived evs).length < n → work true n evs fifo = none) := by
  have hspec := waitForSamples_spec n evs fifo
  refine ⟨?_, ?_, ?_⟩
  · intro out rest h
    rw [work] at h
    simp only [Bool.true_eq_false, if_false] at h
    cases hw : waitForSamples n evs fifo with
    | none => rw [hw] at h; exact absurd h (by simp)
    | some p =>
      rw [hw] at h
      obtain ⟨o, r⟩ := p
      simp only [Option.some.injEq, WorkRes.produced.injEq] at h
      obtain ⟨ho, hr⟩ := h
      subst ho; subst hr
      exact hspec.1 o r hw
  · intro r h
    rw [work] at h
    simp only [Bool.true_eq_false, if_false] at h
    cases hw : waitForSamples n evs fifo with
    | none => rw [hw] at h; exact absurd h (by simp)
    | some p =>
      rw [hw] at h
      obtain ⟨o, rest⟩ := p
      simp only [Option.some.injEq] at h
      subst h
      simp
  · intro hlt
    rw [work]
    simp only [Bool.true_eq_false, if_false]
    rw [hspec.2 hlt]

/-- Witness for C1: `pull(100)` on an empty non-terminated queue with pushes
of 60 then 40 samples returns all 100 in push order; with only the 60-push
it is still blocked. -/
theorem work_pulls_exactly_n_in_push_order_witness :
    ((List.range 100).length = 100 ∧
      List.range 100 =
        (([] : List Nat) ++
          arrived [Ev.push (List.range 60), Ev.push (List.range' 60 40)]).take 100) ∧
    work true 100 [Ev.push (List.range 60)] ([] : List Nat) = none := by
  refine ⟨(work_pulls_exactly_n_in_push_order 100
      [Ev.push (List.range 60), Ev.push (List.range' 60 40)] []).1
      (List.range 100) [] (by decide),
    (work_pulls_exactly_n_in_push_order 100 [Ev.push (List.range 60)] []).2.2 (by decide)⟩

end BladeRF

namespace HackRF

/-- State of the hackrf ring of slabs: `_buf` (the slab array, each slab
modelled by its whole content), `_buf_head`, `_buf_used`, `_buf_num` and an
overrun counter (the source signals each overrun by printing `O`,
hackrf_source_c.cc line 295; we count those signals). -/
structure Ring (α : Type) where
  bufs : List α
  head : Nat
  used : Nat
  num : Nat
  overruns : Nat
deriving DecidableEq

/-- Function `hackrf_source_c::hackrf_rx_callback` (hackrf_source_c.cc lines
286-305): the incoming buffer is copied into the slab at
`(_buf_head + _buf_used) % _buf_num`; if all slabs were in use the overrun is
signalled and `_buf_head` advances (the oldest slab was just overwritten),
otherwise `_buf_used` is incremented. -/
def rxCallback {α : Type} (st : Ring α) (x : α) : Ring α :=
  let tail := (st.head + st.used) % st.num
  let bufs := st.bufs.set tail x
  if st.used = st.num then
    { st with bufs := bufs, head := (st.head + 1) % st.num,
              overruns := st.overruns + 1 }
  else
    { st with bufs := bufs, used := st.used + 1 }

/-- The queued slabs in consumption order: the reader consumes slab
`_buf_head`, then `_buf_head + 1 (mod _buf_num)`, and so on for `_buf_used`
slabs (see `hackrf_source_c::work`, lines 365-392). -/
def contents {α : Type} (st : Ring α) (d : α) : List α :=
  (List.range st.used).map (fun i => st.bufs.getD ((st.head + i) % st.num) d)

end HackRF

namespace HackRF

theorem getD_of_lt {α : Type} (l : List α) (i : Nat) (d : α) (h : i < l.length) :
    l.getD i d = l[i] := by
  simp [List.getD_eq_getElem?_getD, List.getElem?_eq_getElem h]

theorem mod_add_shift_ne {head k num : Nat} (hh : head < num) (hk0 : 0 < k)
    (hk : k < num) : (head + k) % num ≠ head := by
  intro h
  have hmodeq : head + k ≡ head + 0 [MOD num] := by
    unfold Nat.ModEq
    rw [h, Nat.add_zero, Nat.mod_eq_of_lt hh]
  have hzero : k ≡ 0 [MOD num] := Nat.ModEq.add_left_cancel' head hmodeq
  have hkmod : k % num = 0 := by simpa [Nat.ModEq] using hzero
  rw [Nat.mod_eq_of_lt hk] at hkmod
  omega

/-- C2: when all `B` slabs of the hackrf ring are occupied, a push overwrites
exactly the oldest unread slab, signals the overrun exactly once, and leaves
occupancy at `B` with the most recent pushes retained: the queued sequence
afterwards is the old queued sequence minus its oldest element, with the new
slab appended (the newest data is never dropped in favor of older data). -/
theorem rx_callback_full_evicts_oldest {α : Type} (st : Ring α) (x d : α)
    (hlen : st.bufs.length = st.num) (hhead : st.head < st.num)
    (hfull : st.used = st.num) :
    (rxCallback st x).used = st.num ∧
    (rxCallback st x).overruns = st.overruns + 1 ∧
    contents (rxCallback st x) d = (contents st d).drop 1 ++ [x] := by
  have hnum0 : 0 < st.num := by omega
  obtain ⟨m, hm⟩ : ∃ m, st.num = m + 1 := ⟨st.num - 1, by omega⟩
  have htail : (st.head + st.used) % st.num = st.head := by
    rw [hfull, Nat.add_mod_right, Nat.mod_eq_of_lt hhead]
  have hcb : rxCallback st x =
      { st with bufs := st.bufs.set st.head x, head := (st.head + 1) % st.num,
                overruns := st.overruns + 1 } := by
    rw [rxCallback]
    simp only [htail]
    rw [if_pos hfull]
  refine ⟨by rw [hcb]; exact hfull, by rw [hcb], ?_⟩
  rw [hcb]
  show (List.range st.used).map
      (fun i => (st.bufs.set st.head x).getD
        (((st.head + 1) % st.num + i) % st.num) d)
    = ((List.range st.used).map
        (fun i => st.bufs.getD ((st.head + i) % st.num) d)).drop 1 ++ [x]
  rw [hfull]
  have hr : List.range st.num = 0 :: List.map Nat.succ (List.range m) := by
    rw [hm, List.range_succ_eq_map]
  conv_rhs => rw [hr]
  simp only [List.map_cons, List.map_map, List.drop_one, List.tail_cons,
    Nat.succ_eq_add_one]
  apply List.ext_getElem
  · simp [hm]
  · intro j h1 h2
    simp only [List.length_map, List.length_range] at h1
    simp only [List.getElem_map, List.getElem_range]
    by_cases hj : j < m
    · rw [List.getElem_append_left (by simpa using hj)]
      simp only [List.getElem_map, List.getElem_range, Function.comp_apply]
      have hidx : ((st.head + 1) % st.num + j) % st.num
          = (st.head + (j + 1)) % st.num := by
        rw [Nat.mod_add_mod]
        congr 1
        omega
      have hlt : (st.head + (j + 1)) % st.num < st.num := Nat.mod_lt _ hnum0
      have hne : (st.head + (j + 1)) % st.num ≠ st.head :=
        mod_add_shift_ne hhead (by omega) (by omega)
      rw [hidx, getD_of_lt _ _ _ (by rw [List.length_set, hlen]; exact hlt),
        getD_of_lt _ _ _ (by rw [hlen]; exact hlt), List.getElem_set,
        if_neg (fun hcontra => hne hcontra.symm)]
    · have hjm : j = m := by omega
      rw [List.getElem_append_right (by simp [hjm])]
      have hidx : ((st.head + 1) % st.num + j) % st.num = st.head := by
        rw [Nat.mod_add_mod]
        have h9 : st.head + 1 + j = st.head + st.num := by omega
        rw [h9, Nat.add_mod_right, Nat.mod_eq_of_lt hhead]
      rw [hidx, getD_of_lt _ _ _ (by rw [List.length_set, hlen]; exact hhead),
        List.getElem_set, if_pos rfl]
      simp [hjm]

/-- Witness for C2: pushing slabs 1..5 into an initially empty ring of B = 4
slabs with no intervening pops leaves pushes 2-5 queued and exactly one
overrun recorded. -/
theorem rx_callback_full_evicts_oldest_witness :
    (List.foldl rxCallback (⟨[9, 9, 9, 9], 0, 0, 4, 0⟩ : Ring Nat) [1, 2, 3, 4]
        = ⟨[1, 2, 3, 4], 0, 4, 4, 0⟩ ∧
      contents (⟨[1, 2, 3, 4], 0, 4, 4, 0⟩ : Ring Nat) 0 = [1, 2, 3, 4] ∧
      contents (rxCallback (⟨[1, 2, 3, 4], 0, 4, 4, 0⟩ : Ring Nat) 5) 0
        = [2, 3, 4, 5]) ∧
    ((rxCallback (⟨[1, 2, 3, 4], 0, 4, 4, 0⟩ : Ring Nat) 5).used = 4 ∧
      (rxCallback (⟨[1, 2, 3, 4], 0, 4, 4, 0⟩ : Ring Nat) 5).overruns = 0 + 1 ∧
      contents (rxCallback (⟨[1, 2, 3, 4], 0, 4, 4, 0⟩ : Ring Nat) 5) 0
        = (contents (⟨[1, 2, 3, 4], 0, 4, 4, 0⟩ : Ring Nat) 0).drop 1 ++ [5]) :=
  ⟨by decide,
    rx_callback_full_evicts_oldest (⟨[1, 2, 3, 4], 0, 4, 4, 0⟩ : Ring Nat) 5 0
      (by decide) (by decide) (by decide)⟩

/-- Counter state of `hackrf_source_c::work`: `_buf_head`, `_buf_used`,
`_buf_num`, `_buf_offset`, `_samp_avail` and the fixed per-slab sample count
`_buf_len / BYTES_PER_SAMPLE` (the slab contents are irrelevant to the
blocking claims, only the counters matter). -/
structure HWork where
  head : Nat
  used : Nat
  num : Nat
  offset : Nat
  sampAvail : Nat
  sampPerBuf : Nat
deriving DecidableEq

/-- Counter effect of one `hackrf_rx_callback` arrival (lines 286-305): the
callback either advances `_buf_head` past the overwritten slab (ring full) or
increments `_buf_used`; in either case it then signals `_buf_cond`. -/
def cbArrival (st : HWork) : HWork :=
  if st.used = st.num then { st with head := (st.head + 1) % st.num }
  else { st with used := st.used + 1 }

/-- The wait loop at the top of every `hackrf_source_c::work` call (lines
355-360): `while (_buf_used < 3 && running) _buf_cond.wait(lock);`.  The
condition `_buf_cond` is signalled only by `hackrf_rx_callback`; `running` is
the snapshot taken at entry (lines 350-353) and is not re-read inside the
loop.  Each event in the trace is one callback arrival; `none` means the
trace ends with the consumer still waiting. -/
def waitThreeBufs (running : Bool) : List Unit → HWork → Option HWork
  | evs, st =>
    if 3 ≤ st.used ∨ running = false then some st
    else
      match evs with
      | [] => none
      | _ :: rest => waitThreeBufs running rest (cbArrival st)

/-- Result of one `hackrf_source_c::work` call: `WORK_DONE` or
`noutput_items` samples produced, with the counter state afterwards. -/
inductive HRes where
  | done
  | produced (n : Nat) (st : HWork)
deriving DecidableEq

/-- Function `hackrf_source_c::work` (lines 344-396): take the `running`
snapshot, wait until at least 3 buffers are queued (or not running), return
`WORK_DONE` if not running, then copy `noutput_items` samples out of the
current slab, crossing into the next slab (advancing `_buf_head`,
decrementing `_buf_used`) when the current one runs out. -/
def work (running : Bool) (n : Nat) (evs : List Unit) (st : HWork) : Option HRes :=
  match waitThreeBufs running evs st with
  | none => none
  | some st1 =>
    if running = false then some HRes.done
    else if n ≤ st1.sampAvail then
      some (HRes.produced n
        { st1 with offset := st1.offset + n, sampAvail := st1.sampAvail - n })
    else
      let rem := n - st1.sampAvail
      some (HRes.produced n
        { st1 with head := (st1.head + 1) % st1.num, used := st1.used - 1,
                   offset := rem, sampAvail := st1.sampPerBuf - rem })

/-- C9 counterexample: the minimum-fill threshold is NOT imposed only on the
first pull.  With the source constants (`_buf_num = 15`, slab size
`BUF_LEN / 2 = 131072` samples) and 3 buffers queued, the first pull of a
full slab and a second pull both proceed, leaving `_buf_used = 2` and 131071
samples available in the current slab; the next pull of a single sample then
blocks (`none`) although the requested sample is available, because the
`_buf_used < 3` wait is re-executed at the top of every `work` call. -/
theorem threshold_reimposed_on_every_pull_cex :
    work true 131072 [] ⟨0, 3, 15, 0, 131072, 131072⟩
      = some (HRes.produced 131072 ⟨0, 3, 15, 131072, 0, 131072⟩) ∧
    work true 1 [] ⟨0, 3, 15, 131072, 0, 131072⟩
      = some (HRes.produced 1 ⟨1, 2, 15, 1, 131071, 131072⟩) ∧
    1 ≤ (⟨1, 2, 15, 1, 131071, 131072⟩ : HWork).sampAvail ∧
    work true 1 [] ⟨1, 2, 15, 1, 131071, 131072⟩ = none := by
  refine ⟨?_, ?_, by decide, ?_⟩ <;> decide

/-- C9 (amended): the at-least-3-buffers threshold of `hackrf_source_c::work`
is imposed at the start of EVERY pull, not only the first: while the stream
is live, any `work` call that finds fewer than 3 buffers queued suspends
until callbacks have brought `_buf_used` up to 3, even if the requested `n`
samples are already available; whenever at least 3 buffers are queued the
call proceeds without waiting. -/
theorem threshold_checked_every_call (st : HWork) (n : Nat) :
    (st.used < 3 → work true n [] st = none) ∧
    (3 ≤ st.used → ∀ evs, work true n evs st ≠ none) := by
  constructor
  · intro h
    rw [work, waitThreeBufs.eq_def]
    have : ¬ (3 ≤ st.used ∨ (true = false)) := by
      simp
      omega
    simp only [this, if_neg, if_false]
  · intro h evs
    rw [work, waitThreeBufs.eq_def]
    have hcond : (3 ≤ st.used ∨ (true = false)) := Or.inl h
    simp only [hcond, if_pos, if_true]
    simp only [Bool.true_eq_false, if_false]
    by_cases hn : n ≤ st.sampAvail <;> simp [hn]

/-- Witness for C9 (amended), at the states of the counterexample run. -/
theorem threshold_checked_every_call_witness :
    (work true 1 [] ⟨1, 2, 15, 1, 131071, 131072⟩ = none) ∧
    (work true 131072 [] ⟨0, 3, 15, 0, 131072, 131072⟩ ≠ none) :=
  ⟨(threshold_checked_every_call ⟨1, 2, 15, 1, 131071, 131072⟩ 1).1 (by decide),
    (threshold_checked_every_call ⟨0, 3, 15, 0, 131072, 131072⟩ 131072).2
      (by decide) []⟩

end HackRF

/-- C3 counterexample: a consumer blocked inside `pull`/`work` waiting for
samples is NOT woken when the device transitions to non-streaming.  In the
bladerf backend, a consumer blocked on `samples_available` with an empty fifo
stays blocked across a `set_running(false)` transition (the stop path never
notifies the condition variable); in the hackrf backend a consumer blocked on
`_buf_cond` with too few buffers stays blocked once callbacks cease (nothing
signals `_buf_cond` on stream termination, and the `running` snapshot is not
re-read inside the wait loop).  `none` means the call never returns. -/
theorem stop_does_not_wake_blocked_consumer_cex :
    BladeRF.work true 1 [BladeRF.Ev.stop] ([] : List Nat) = none ∧
    HackRF.work true 1 [] ⟨0, 0, 15, 0, 131072, 131072⟩ = none := by
  constructor <;> decide

/-- C3 (amended): the wait conditions are signalled only on data arrival,
never on stream termination, so a consumer already blocked inside `pull` when
the device stops is not woken and remains blocked; only a `pull` call entered
AFTER the device has stopped streaming observes the transition and returns
the graceful end-of-stream indicator (`WORK_DONE`) rather than an error. -/
theorem stop_wakes_nothing_but_fresh_pull_sees_done {α : Type} (n : Nat)
    (fifo : List α) (evs : List (BladeRF.Ev α)) (st : HackRF.HWork)
    (hevs : List (Unit)) (hshort : fifo.length < n) :
    BladeRF.work true n [BladeRF.Ev.stop] fifo = none ∧
    BladeRF.work false n evs fifo = some BladeRF.WorkRes.done ∧
    HackRF.work false n hevs st = some HackRF.HRes.done := by
  refine ⟨?_, ?_, ?_⟩
  · have harr : fifo ++ BladeRF.arrived [BladeRF.Ev.stop (α := α)] = fifo := by
      simp [BladeRF.arrived]
    rw [BladeRF.work]
    simp only [Bool.true_eq_false, if_false]
    rw [(BladeRF.waitForSamples_spec n [BladeRF.Ev.stop] fifo).2
      (by rw [harr]; exact hshort)]
  · rw [BladeRF.work]
    simp
  · rw [HackRF.work, HackRF.waitThreeBufs.eq_def]
    simp

/-- Witness for C3 (amended): a consumer blocked requesting one sample on an
empty fifo is not woken by the stop transition; fresh pulls after termination
return the end-of-stream indicator in both backends. -/
theorem stop_wakes_nothing_but_fresh_pull_sees_done_witness :
    BladeRF.work true 1 [BladeRF.Ev.stop] ([] : List Nat) = none ∧
    BladeRF.work false 1 [] ([] : List Nat) = some BladeRF.WorkRes.done ∧
    HackRF.work false 1 [] ⟨0, 0, 15, 0, 131072, 131072⟩
      = some HackRF.HRes.done :=
  stop_wakes_nothing_but_fresh_pull_sees_done 1 [] [] ⟨0, 0, 15, 0, 131072, 131072⟩
    [] (by decide)

namespace HackRF

/-- Cached control-plane state of `hackrf_source_c`: `_dev` (whether a device
handle is open), `_sample_rate`, `_center_freq`, `_freq_corr`, `_auto_gain`,
`_amp_gain`, `_lna_gain`, `_vga_gain`, `_bandwidth` (constructor, lines
94-103).  The C `double` fields are modelled as exact rationals. -/
structure HDev where
  dev : Bool
  sample_rate : ℚ
  center_freq : ℚ
  freq_corr : ℚ
  auto_gain : Bool
  amp_gain : ℚ
  lna_gain : ℚ
  vga_gain : ℚ
  bandwidth : ℚ
deriving DecidableEq

/-- Outcome of a libhackrf parameter-write primitive (`HACKRF_SUCCESS` or a
nonzero error code). -/
inductive HwRes where
  | ok
  | err (code : Int)
deriving DecidableEq

/-- What a setter call produced: the value it returned, or the
`std::runtime_error` thrown by `HACKRF_THROW_ON_ERROR` with the failing
code. -/
inductive CallRet where
  | value (v : ℚ)
  | thrown (code : Int)
deriving DecidableEq

/-- Result of a control-plane setter call: the value handed to the hardware
primitive (`none` when `_dev` is null and no hardware call is made), the
cached state afterwards, and the returned value or thrown error. -/
structure CallOut where
  sent : Option ℚ
  st : HDev
  ret : CallRet
deriving DecidableEq

/-- Modelled from the spec: `osmosdr::gain_range_t::clip` is implemented in
the repository's `lib/ranges.cc`, which is not among the provided source
files.  Per the spec, `clip` returns the admissible value minimizing absolute
distance: the request is clamped to `[start, stop]` and, when `step > 0`,
rounded to the nearest multiple of `step` within the containing range. -/
def rangeClip (start stop step v : ℚ) : ℚ :=
  if v ≤ start then start
  else if stop ≤ v then stop
  else if step = 0 then v
  else start + step * (round ((v - start) / step) : ℤ)

/-- The declared sample-rate RangeSet, `get_sample_rates` (lines 479-494):
five discrete points. -/
def sampleRatesList : List ℚ := [8000000, 10000000, 12500000, 16000000, 20000000]

/-- Admissibility per the declared sample-rate RangeSet. -/
def sampleRateAdmissible (r : ℚ) : Prop := r ∈ sampleRatesList

instance : DecidablePred sampleRateAdmissible := fun r =>
  inferInstanceAs (Decidable (r ∈ sampleRatesList))

/-- Function `hackrf_source_c::set_sample_rate` (lines 496-511): the
requested rate is passed to `hackrf_set_sample_rate` unmodified; on success
it is cached, on failure the error is thrown; the call returns
`get_sample_rate()`. -/
def set_sample_rate (st : HDev) (rate : ℚ) (r : HwRes) : CallOut :=
  if st.dev then
    match r with
    | HwRes.ok =>
      let st1 := { st with sample_rate := rate }
      ⟨some rate, st1, CallRet.value st1.sample_rate⟩
    | HwRes.err c => ⟨some rate, st, CallRet.thrown c⟩
  else
    ⟨none, st, CallRet.value st.sample_rate⟩

/-- Getter `hackrf_source_c::get_sample_rate` (lines 513-516). -/
def get_sample_rate (st : HDev) : ℚ := st.sample_rate

/-- Truncation toward zero: the semantics of the C `uint64_t(corr_freq)` and
`uint32_t(bandwidth)` casts (hackrf_source_c.cc lines 535 and 736) on their
defined domain (nonnegative values that fit the target type). -/
def cUIntTrunc (q : ℚ) : ℤ := if 0 ≤ q then ⌊q⌋ else ⌈q⌉

/-- Function `hackrf_source_c::set_center_freq` (lines 527-544): the ppm
correction `corr_freq = freq * (1.0 + _freq_corr * 0.000001)` is applied and
the TRUNCATED corrected value `uint64_t(corr_freq)` is passed to
`hackrf_set_freq` (line 535); on success the UNCORRECTED `freq` is cached;
the call returns `get_center_freq()`. -/
def set_center_freq (st : HDev) (freq : ℚ) (r : HwRes) : CallOut :=
  if st.dev then
    let corr_freq := freq * (1 + st.freq_corr * (1 / 1000000))
    let hw_freq : ℚ := (cUIntTrunc corr_freq : ℤ)
    match r with
    | HwRes.ok =>
      let st1 := { st with center_freq := freq }
      ⟨some hw_freq, st1, CallRet.value st1.center_freq⟩
    | HwRes.err c => ⟨some hw_freq, st, CallRet.thrown c⟩
  else
    ⟨none, st, CallRet.value st.center_freq⟩

/-- Getter `hackrf_source_c::get_center_freq` (lines 546-549). -/
def get_center_freq (st : HDev) : ℚ := st.center_freq

/-- Function `hackrf_source_c::set_freq_corr` (lines 551-558): stores the ppm
value, then re-issues `set_center_freq(_center_freq)`; a throw from the
nested call propagates; otherwise returns `get_freq_corr()`. -/
def set_freq_corr (st : HDev) (ppm : ℚ) (r : HwRes) : CallOut :=
  let st1 := { st with freq_corr := ppm }
  let c := set_center_freq st1 st1.center_freq r
  match c.ret with
  | CallRet.thrown e => ⟨c.sent, c.st, CallRet.thrown e⟩
  | CallRet.value _ => ⟨c.sent, c.st, CallRet.value c.st.freq_corr⟩

/-- Getter `hackrf_source_c::get_freq_corr` (lines 560-563). -/
def get_freq_corr (st : HDev) : ℚ := st.freq_corr

/-- The declared gain-stage names, `get_gain_names` (lines 565-574). -/
def get_gain_names : List String := ["RF", "IF", "BB"]

/-- Function `hackrf_source_c::set_gain` (unqualified, lines 610-628): clips
the request via the RF RangeSet `(0, 14, 14)`, maps it to the amp on/off bit
sent to `hackrf_set_amp_enable`, and caches `_amp_gain` on success; returns
the cached `_amp_gain`. -/
def set_gain (st : HDev) (gain : ℚ) (r : HwRes) : CallOut :=
  if st.dev then
    let clip_gain := rangeClip 0 14 14 gain
    let value : ℚ := if clip_gain = 14 then 1 else 0
    match r with
    | HwRes.ok =>
      let st1 := { st with amp_gain := clip_gain }
      ⟨some value, st1, CallRet.value st1.amp_gain⟩
    | HwRes.err c => ⟨some value, st, CallRet.thrown c⟩
  else
    ⟨none, st, CallRet.value st.amp_gain⟩

/-- Function `hackrf_source_c::set_if_gain` (lines 669-686): clips via the IF
RangeSet `(0, 40, 8)`, sends the clipped value to `hackrf_set_lna_gain`,
caches `_lna_gain` on success; returns the cached `_lna_gain`. -/
def set_if_gain (st : HDev) (gain : ℚ) (r : HwRes) : CallOut :=
  if st.dev then
    let clip_gain := rangeClip 0 40 8 gain
    match r with
    | HwRes.ok =>
      let st1 := { st with lna_gain := clip_gain }
      ⟨some clip_gain, st1, CallRet.value st1.lna_gain⟩
    | HwRes.err c => ⟨some clip_gain, st, CallRet.thrown c⟩
  else
    ⟨none, st, CallRet.value st.lna_gain⟩

/-- Function `hackrf_source_c::set_bb_gain` (lines 688-705): clips via the BB
RangeSet `(0, 62, 2)`, sends the clipped value to `hackrf_set_vga_gain`,
caches `_vga_gain` on success; returns the cached `_vga_gain`. -/
def set_bb_gain (st : HDev) (gain : ℚ) (r : HwRes) : CallOut :=
  if st.dev then
    let clip_gain := rangeClip 0 62 2 gain
    match r with
    | HwRes.ok =>
      let st1 := { st with vga_gain := clip_gain }
      ⟨some clip_gain, st1, CallRet.value st1.vga_gain⟩
    | HwRes.err c => ⟨some clip_gain, st, CallRet.thrown c⟩
  else
    ⟨none, st, CallRet.value st.vga_gain⟩

/-- Function `hackrf_source_c::set_gain` (named overload, lines 630-645):
routes "RF"/"IF"/"BB" to the corresponding stage setter and falls through to
the unqualified `set_gain` (the RF/amp stage) for ANY other name. -/
def set_gain_named (st : HDev) (gain : ℚ) (name : String) (r : HwRes) : CallOut :=
  if name = "RF" then set_gain st gain r
  else if name = "IF" then set_if_gain st gain r
  else if name = "BB" then set_bb_gain st gain r
  else set_gain st gain r

/-- The declared filter bandwidths, `get_bandwidth_range` (lines 753-777). -/
def bandwidthsList : List ℚ :=
  [1750000, 2500000, 3500000, 5000000, 5500000, 6000000, 7000000, 8000000,
   9000000, 10000000, 12000000, 14000000, 15000000, 20000000, 24000000,
   28000000]

/-- Modelled from the spec: `hackrf_compute_baseband_filter_bw` is a libhackrf
primitive (external to the repository); per the spec the requested bandwidth
is "snapped to the nearest hardware-supported filter bandwidth". -/
def computeBasebandFilterBw (bw : ℚ) : ℚ :=
  bandwidthsList.foldl (fun b x => if |x - bw| < |b - bw| then x else b)
    (bandwidthsList.headD 0)

/-- Function `hackrf_source_c::set_bandwidth` (lines 726-746): a requested
bandwidth of exactly zero selects `_sample_rate * 0.75`; the result is
truncated by the `uint32_t(bandwidth)` cast (line 736), snapped by
`hackrf_compute_baseband_filter_bw` and sent to
`hackrf_set_baseband_filter_bandwidth`; the SNAPPED value is cached in
`_bandwidth` on success; returns `_bandwidth`. -/
def set_bandwidth (st : HDev) (bandwidth : ℚ) (r : HwRes) : CallOut :=
  let bw1 := if bandwidth = 0 then st.sample_rate * (3 / 4) else bandwidth
  if st.dev then
    let bw := computeBasebandFilterBw ((cUIntTrunc bw1 : ℤ) : ℚ)
    match r with
    | HwRes.ok =>
      let st1 := { st with bandwidth := bw }
      ⟨some bw, st1, CallRet.value st1.bandwidth⟩
    | HwRes.err c => ⟨some bw, st, CallRet.thrown c⟩
  else
    ⟨none, st, CallRet.value st.bandwidth⟩

end HackRF

namespace HackRF

/-- C4 counterexample: `set_center_freq` does NOT send the exact corrected
value `f * (1 + p * 1e-6)` for every `p` and `f`: the source truncates it
through the `uint64_t(corr_freq)` cast (line 535).  After `set_freq_corr(100)`,
`set_center_freq(1)` hands the hardware `uint64_t(1.0001) = 1`, not the
corrected value `1.0001` the claim asserts. -/
theorem ppm_correction_exact_send_cex :
    (set_center_freq
        (set_freq_corr ⟨true, 0, 0, 0, false, 0, 0, 0, 0⟩ 100 HwRes.ok).st
        1 HwRes.ok).sent = some (1 : ℚ) ∧
    ¬ ((1 : ℚ) * (1 + 100 * (1 / 1000000)) = 1) := by
  constructor
  · simp only [set_freq_corr, set_center_freq, cUIntTrunc]
    norm_num
  · norm_num

/-- C4 (amended): after `set_freq_corr(p)`, a successful `set_center_freq(f)`
sends the ppm-corrected value `f * (1 + p * 1e-6)` TRUNCATED toward zero to
an integer (the `uint64_t` cast of line 535) to `hackrf_set_freq`, while the
cached (and reported) center frequency is the uncorrected `f` and the stored
correction is still `p`.  For the reference inputs (`p = 100`,
`f = 1_000_000`) the corrected value is the exact integer `1_000_100`, which
is what the hardware receives. -/
theorem ppm_correction_applied_truncated (st : HDev) (p f : ℚ)
    (hdev : st.dev = true) :
    (set_center_freq (set_freq_corr st p HwRes.ok).st f HwRes.ok).sent
      = some ((cUIntTrunc (f * (1 + p * (1 / 1000000))) : ℤ) : ℚ) ∧
    get_center_freq (set_center_freq (set_freq_corr st p HwRes.ok).st f HwRes.ok).st
      = f ∧
    get_freq_corr (set_center_freq (set_freq_corr st p HwRes.ok).st f HwRes.ok).st
      = p := by
  simp [set_freq_corr, set_center_freq, get_center_freq, get_freq_corr, hdev]

/-- Witness for C4 (amended): `set_freq_corr(100)` then
`set_center_freq(1000000)` sends exactly `1000100` to the hardware while
`get_center_freq` still reports `1000000` and `get_freq_corr` reports
`100`. -/
theorem ppm_correction_applied_truncated_witness :
    (set_center_freq
        (set_freq_corr ⟨true, 0, 0, 0, false, 0, 0, 0, 0⟩ 100 HwRes.ok).st
        1000000 HwRes.ok).sent = some (1000100 : ℚ) ∧
    get_center_freq
        (set_center_freq
          (set_freq_corr ⟨true, 0, 0, 0, false, 0, 0, 0, 0⟩ 100 HwRes.ok).st
          1000000 HwRes.ok).st = 1000000 ∧
    get_freq_corr
        (set_center_freq
          (set_freq_corr ⟨true, 0, 0, 0, false, 0, 0, 0, 0⟩ 100 HwRes.ok).st
          1000000 HwRes.ok).st = 100 := by
  have h := ppm_correction_applied_truncated ⟨true, 0, 0, 0, false, 0, 0, 0, 0⟩
    100 1000000 rfl
  refine ⟨?_, h.2.1, h.2.2⟩
  rw [h.1, show (1000000 : ℚ) * (1 + 100 * (1 / 1000000)) = 1000100 from by norm_num,
    cUIntTrunc, if_pos (by norm_num : (0 : ℚ) ≤ 1000100)]
  norm_num

/-- C5: for every hackrf setter (sample rate, center frequency, RF/IF/BB gain
stages, bandwidth), a hardware failure leaves the cached device state exactly
as it was and surfaces the failure (the thrown error with the hardware code)
to the caller of that specific setter; a new value is committed only on
explicit hardware success. -/
theorem setter_failure_preserves_state (st : HDev) (v : ℚ) (c : Int)
    (hdev : st.dev = true) :
    ((set_sample_rate st v (HwRes.err c)).st = st ∧
      (set_sample_rate st v (HwRes.err c)).ret = CallRet.thrown c) ∧
    ((set_center_freq st v (HwRes.err c)).st = st ∧
      (set_center_freq st v (HwRes.err c)).ret = CallRet.thrown c) ∧
    ((set_gain st v (HwRes.err c)).st = st ∧
      (set_gain st v (HwRes.err c)).ret = CallRet.thrown c) ∧
    ((set_if_gain st v (HwRes.err c)).st = st ∧
      (set_if_gain st v (HwRes.err c)).ret = CallRet.thrown c) ∧
    ((set_bb_gain st v (HwRes.err c)).st = st ∧
      (set_bb_gain st v (HwRes.err c)).ret = CallRet.thrown c) ∧
    ((set_bandwidth st v (HwRes.err c)).st = st ∧
      (set_bandwidth st v (HwRes.err c)).ret = CallRet.thrown c) := by
  refine ⟨⟨?_, ?_⟩, ⟨?_, ?_⟩, ⟨?_, ?_⟩, ⟨?_, ?_⟩, ⟨?_, ?_⟩, ⟨?_, ?_⟩⟩ <;>
    simp [set_sample_rate, set_center_freq, set_gain, set_if_gain,
      set_bb_gain, set_bandwidth, hdev]

/-- Witness for C5 at a concrete open device, request 5, error code -5. -/
theorem setter_failure_preserves_state_witness :
    ((set_sample_rate ⟨true, 8000000, 100, 0, false, 0, 16, 20, 1750000⟩ 5
        (HwRes.err (-5))).st = ⟨true, 8000000, 100, 0, false, 0, 16, 20, 1750000⟩ ∧
      (set_sample_rate ⟨true, 8000000, 100, 0, false, 0, 16, 20, 1750000⟩ 5
        (HwRes.err (-5))).ret = CallRet.thrown (-5)) ∧
    ((set_center_freq ⟨true, 8000000, 100, 0, false, 0, 16, 20, 1750000⟩ 5
        (HwRes.err (-5))).st = ⟨true, 8000000, 100, 0, false, 0, 16, 20, 1750000⟩ ∧
      (set_center_freq ⟨true, 8000000, 100, 0, false, 0, 16, 20, 1750000⟩ 5
        (HwRes.err (-5))).ret = CallRet.thrown (-5)) ∧
    ((set_gain ⟨true, 8000000, 100, 0, false, 0, 16, 20, 1750000⟩ 5
        (HwRes.err (-5))).st = ⟨true, 8000000, 100, 0, false, 0, 16, 20, 1750000⟩ ∧
      (set_gain ⟨true, 8000000, 100, 0, false, 0, 16, 20, 1750000⟩ 5
        (HwRes.err (-5))).ret = CallRet.thrown (-5)) ∧
    ((set_if_gain ⟨true, 8000000, 100, 0, false, 0, 16, 20, 1750000⟩ 5
        (HwRes.err (-5))).st = ⟨true, 8000000, 100, 0, false, 0, 16, 20, 1750000⟩ ∧
      (set_if_gain ⟨true, 8000000, 100, 0, false, 0, 16, 20, 1750000⟩ 5
        (HwRes.err (-5))).ret = CallRet.thrown (-5)) ∧
    ((set_bb_gain ⟨true, 8000000, 100, 0, false, 0, 16, 20, 1750000⟩ 5
        (HwRes.err (-5))).st = ⟨true, 8000000, 100, 0, false, 0, 16, 20, 1750000⟩ ∧
      (set_bb_gain ⟨true, 8000000, 100, 0, false, 0, 16, 20, 1750000⟩ 5
        (HwRes.err (-5))).ret = CallRet.thrown (-5)) ∧
    ((set_bandwidth ⟨true, 8000000, 100, 0, false, 0, 16, 20, 1750000⟩ 5
        (HwRes.err (-5))).st = ⟨true, 8000000, 100, 0, false, 0, 16, 20, 1750000⟩ ∧
      (set_bandwidth ⟨true, 8000000, 100, 0, false, 0, 16, 20, 1750000⟩ 5
        (HwRes.err (-5))).ret = CallRet.thrown (-5)) :=
  setter_failure_preserves_state ⟨true, 8000000, 100, 0, false, 0, 16, 20, 1750000⟩
    5 (-5) rfl

end HackRF

namespace HackRF

/-- Membership in a stepped RangeSet `{start, start+step, ..., stop}`. -/
def inSteppedRange (start stop step x : ℚ) : Prop :=
  start ≤ x ∧ x ≤ stop ∧ ∃ k : ℤ, x = start + k * step

theorem rangeClip_admissible (start stop step v : ℚ) (hstep : 0 < step)
    (m : ℕ) (hdiv : stop = start + m * step) :
    inSteppedRange start stop step (rangeClip start stop step v) := by
  have hle : start ≤ stop := by
    rw [hdiv]
    have : (0 : ℚ) ≤ m * step :=
      mul_nonneg (by exact_mod_cast Nat.zero_le m) (le_of_lt hstep)
    linarith
  rw [rangeClip]
  by_cases h1 : v ≤ start
  · simp only [h1, if_pos]
    exact ⟨le_refl _, hle, 0, by ring⟩
  · simp only [h1, if_neg, if_false]
    by_cases h2 : stop ≤ v
    · simp only [h2, if_pos]
      exact ⟨hle, le_refl _, m, by rw [hdiv]; push_cast; ring⟩
    · simp only [h2, if_neg, if_false, if_neg (ne_of_gt hstep)]
      push_neg at h1 h2
      set k : ℤ := round ((v - start) / step) with hk
      have hq0 : (0 : ℚ) < (v - start) / step := div_pos (by linarith) hstep
      have hkn : (0 : ℤ) ≤ k := by
        rw [hk, round_eq]
        rw [Int.le_floor]
        push_cast
        linarith
      have hkm : k ≤ m := by
        rw [hk, round_eq]
        have hlt : (v - start) / step < m := by
          rw [div_lt_iff₀ hstep]
          rw [hdiv] at h2
          linarith
        have : ⌊(v - start) / step + 1 / 2⌋ < (m : ℤ) + 1 := by
          rw [Int.floor_lt]
          push_cast
          linarith
        omega
      refine ⟨?_, ?_, k, by ring⟩
      · have : (0 : ℚ) ≤ (k : ℚ) * step :=
          mul_nonneg (by exact_mod_cast hkn) (le_of_lt hstep)
        linarith
      · rw [hdiv]
        have : (k : ℚ) * step ≤ (m : ℚ) * step := by
          apply mul_le_mul_of_nonneg_right _ (le_of_lt hstep)
          exact_mod_cast hkm
        linarith

/-- C6 counterexample: `set_sample_rate` does NOT clip to the declared
sample-rate RangeSet before issuing the hardware call: requesting 5 MHz on an
open device sends exactly 5000000 to `hackrf_set_sample_rate`, a value not
admissible per `get_sample_rates` (the source deliberately forwards arbitrary
rates, lines 483-485 and 501). -/
theorem set_sample_rate_not_clipped_cex :
    (set_sample_rate ⟨true, 0, 0, 0, false, 0, 0, 0, 0⟩ 5000000 HwRes.ok).sent
      = some 5000000 ∧
    ¬ sampleRateAdmissible 5000000 := by
  constructor
  · rfl
  · decide

/-- C6 (amended): only the gain-stage setters clip the request via their
declared RangeSet before the hardware call — `set_if_gain` sends a value
admissible per `(0, 40, 8)`, `set_bb_gain` per `(0, 62, 2)`, and the
unqualified (RF) `set_gain` clips to `{0, 14}` and sends the amp on/off bit —
while `set_sample_rate` sends the requested rate unmodified and
`set_center_freq` sends the ppm-corrected request — truncated to an integer
by the `uint64_t` cast, but clipped against no RangeSet (bandwidth snapping
is delegated to libhackrf). -/
theorem gain_setters_clip_others_send_raw (st : HDev) (g : ℚ) (r : HwRes)
    (hdev : st.dev = true) :
    (set_if_gain st g r).sent = some (rangeClip 0 40 8 g) ∧
    inSteppedRange 0 40 8 (rangeClip 0 40 8 g) ∧
    (set_bb_gain st g r).sent = some (rangeClip 0 62 2 g) ∧
    inSteppedRange 0 62 2 (rangeClip 0 62 2 g) ∧
    (rangeClip 0 14 14 g = 0 ∨ rangeClip 0 14 14 g = 14) ∧
    ((set_gain st g r).sent = some 0 ∨ (set_gain st g r).sent = some 1) ∧
    (set_sample_rate st g r).sent = some g ∧
    (set_center_freq st g r).sent
      = some ((cUIntTrunc (g * (1 + st.freq_corr * (1 / 1000000))) : ℤ) : ℚ) := by
  have hrf : rangeClip 0 14 14 g = 0 ∨ rangeClip 0 14 14 g = 14 := by
    have h := rangeClip_admissible 0 14 14 g (by norm_num) 1 (by norm_num)
    obtain ⟨h0, h14, k, hk⟩ := h
    rw [hk] at h0 h14 ⊢
    have hk0 : (0 : ℤ) ≤ k := by
      by_contra hcon
      push_neg at hcon
      have hcon2 : k ≤ -1 := by omega
      have : (k : ℚ) ≤ -1 := by exact_mod_cast hcon2
      nlinarith
    have hk1 : k ≤ 1 := by
      by_contra hcon
      push_neg at hcon
      have hcon2 : (2 : ℤ) ≤ k := by omega
      have : (2 : ℚ) ≤ (k : ℚ) := by exact_mod_cast hcon2
      nlinarith
    interval_cases k
    · left; norm_num
    · right; norm_num
  refine ⟨?_, rangeClip_admissible 0 40 8 g (by norm_num) 5 (by norm_num),
    ?_, rangeClip_admissible 0 62 2 g (by norm_num) 31 (by norm_num),
    hrf, ?_, ?_, ?_⟩
  · cases r <;> simp [set_if_gain, hdev]
  · cases r <;> simp [set_bb_gain, hdev]
  · cases hrf with
    | inl h0 => cases r <;> simp [set_gain, hdev, h0]
    | inr h14 => cases r <;> simp [set_gain, hdev, h14]
  · cases r <;> simp [set_sample_rate, hdev]
  · cases r <;> simp [set_center_freq, hdev]

/-- Witness for C6 (amended) at a concrete open device and request 31. -/
theorem gain_setters_clip_others_send_raw_witness :
    (set_if_gain ⟨true, 0, 0, 0, false, 0, 0, 0, 0⟩ 31 HwRes.ok).sent
      = some (rangeClip 0 40 8 31) ∧
    inSteppedRange 0 40 8 (rangeClip 0 40 8 31) ∧
    (set_bb_gain ⟨true, 0, 0, 0, false, 0, 0, 0, 0⟩ 31 HwRes.ok).sent
      = some (rangeClip 0 62 2 31) ∧
    inSteppedRange 0 62 2 (rangeClip 0 62 2 31) ∧
    (rangeClip 0 14 14 31 = 0 ∨ rangeClip 0 14 14 31 = 14) ∧
    ((set_gain ⟨true, 0, 0, 0, false, 0, 0, 0, 0⟩ 31 HwRes.ok).sent = some 0 ∨
      (set_gain ⟨true, 0, 0, 0, false, 0, 0, 0, 0⟩ 31 HwRes.ok).sent = some 1) ∧
    (set_sample_rate ⟨true, 0, 0, 0, false, 0, 0, 0, 0⟩ 31 HwRes.ok).sent
      = some 31 ∧
    (set_center_freq ⟨true, 0, 0, 0, false, 0, 0, 0, 0⟩ 31 HwRes.ok).sent
      = some ((cUIntTrunc (31 * (1 + (0 : ℚ) * (1 / 1000000))) : ℤ) : ℚ) :=
  gain_setters_clip_others_send_raw ⟨true, 0, 0, 0, false, 0, 0, 0, 0⟩ 31
    HwRes.ok rfl

end HackRF

namespace BladeRF

/-- The gain registers of the bladerf receive path, holding what the last
successful `bladerf_set_lna_gain` / `bladerf_set_rxvga1` /
`bladerf_set_rxvga2` call wrote (the bladerf backend caches nothing; state
lives in the hardware and getters read it back). -/
structure BDev where
  lna : ℚ
  vga1 : ℤ
  vga2 : ℤ
deriving DecidableEq

/-- Truncation toward zero, the semantics of the C `(int)gain` cast used for
the VGA stages (part_000 lines 476 and 478). -/
def cIntTrunc (q : ℚ) : ℤ := if 0 ≤ q then ⌊q⌋ else ⌈q⌉

/-- The declared gain-stage names, `bladerf_source_c::get_gain_names`
(part_000 lines 405-412). -/
def get_gain_names : List String := ["LNA", "VGA1", "VGA2"]

/-- What a bladerf gain-setter call produced: the read-back gain, or the
message of the `std::runtime_error` it threw. -/
inductive GainRet where
  | value (v : ℚ)
  | thrown (msg : String)
deriving DecidableEq

/-- Function `bladerf_source_c::set_gain` (named overload, part_000 lines
457-493): "LNA" maps 0/3/6 dB to the LNA enum (anything else logs and forces
LNA_MAX = 6 dB), "VGA1"/"VGA2" pass the integer-cast gain to the hardware,
and ANY OTHER name throws `std::runtime_error` before touching hardware.  A
nonzero hardware return code `ret` also throws, leaving the registers as they
were.  On success the call returns `get_gain(name)` read back from the
registers. -/
def set_gain_named (st : BDev) (gain : ℚ) (name : String) (ret : Int) :
    BDev × GainRet :=
  if name = "LNA" then
    let g : ℚ := if gain = 0 then 0 else if gain = 3 then 3 else 6
    if ret = 0 then
      let st1 := { st with lna := g }
      (st1, GainRet.value st1.lna)
    else (st, GainRet.thrown "could not set LNA gain")
  else if name = "VGA1" then
    if ret = 0 then
      let st1 := { st with vga1 := cIntTrunc gain }
      (st1, GainRet.value (st1.vga1 : ℚ))
    else (st, GainRet.thrown "could not set VGA1 gain")
  else if name = "VGA2" then
    if ret = 0 then
      let st1 := { st with vga2 := cIntTrunc gain }
      (st1, GainRet.value (st1.vga2 : ℚ))
    else (st, GainRet.thrown "could not set VGA2 gain")
  else
    (st, GainRet.thrown "requested to set the gain of an unknown gain element")

end BladeRF

/-- C7 counterexample: the hackrf named `set_gain` does NOT fail on a
gain-stage name outside `get_gain_names`; it silently routes the request to
the RF/amp stage: `set_gain(14, "AMP2")` on an open device succeeds,
returning 14 and committing `_amp_gain = 14`, although "AMP2" is not a
declared stage. -/
theorem unknown_gain_name_silently_routed_cex :
    (HackRF.set_gain_named ⟨true, 0, 0, 0, false, 0, 0, 0, 0⟩ 14 "AMP2"
        HackRF.HwRes.ok).st.amp_gain = 14 ∧
    (HackRF.set_gain_named ⟨true, 0, 0, 0, false, 0, 0, 0, 0⟩ 14 "AMP2"
        HackRF.HwRes.ok).ret = HackRF.CallRet.value 14 ∧
    ¬ ("AMP2" ∈ HackRF.get_gain_names) := by
  refine ⟨?_, ?_, by decide⟩ <;>
    simp [HackRF.set_gain_named, HackRF.set_gain, HackRF.rangeClip]

/-- C7 (amended): the bladerf named `set_gain` rejects a gain-stage name that
is not among its declared stages with an unknown-gain-stage error and changes
no state; the hackrf named `set_gain`, by contrast, silently routes any
undeclared name to the unqualified (RF/amp) `set_gain`, exactly as an "RF"
request would be handled. -/
theorem unknown_gain_stage_handling (bst : BladeRF.BDev) (hst : HackRF.HDev)
    (g : ℚ) (name : String) (ret : Int) (r : HackRF.HwRes)
    (hname1 : ¬ name ∈ BladeRF.get_gain_names)
    (hname2 : ¬ name ∈ HackRF.get_gain_names) :
    (BladeRF.set_gain_named bst g name ret).1 = bst ∧
    (BladeRF.set_gain_named bst g name ret).2
      = BladeRF.GainRet.thrown
          "requested to set the gain of an unknown gain element" ∧
    HackRF.set_gain_named hst g name r = HackRF.set_gain hst g r := by
  have hLNA : ¬ name = "LNA" := by
    intro h; subst h; exact hname1 (by decide)
  have hVGA1 : ¬ name = "VGA1" := by
    intro h; subst h; exact hname1 (by decide)
  have hVGA2 : ¬ name = "VGA2" := by
    intro h; subst h; exact hname1 (by decide)
  have hRF : ¬ name = "RF" := by
    intro h; subst h; exact hname2 (by decide)
  have hIF : ¬ name = "IF" := by
    intro h; subst h; exact hname2 (by decide)
  have hBB : ¬ name = "BB" := by
    intro h; subst h; exact hname2 (by decide)
  refine ⟨?_, ?_, ?_⟩
  · simp [BladeRF.set_gain_named, hLNA, hVGA1, hVGA2]
  · simp [BladeRF.set_gain_named, hLNA, hVGA1, hVGA2]
  · simp [HackRF.set_gain_named, hRF, hIF, hBB]

/-- Witness for C7 (amended) at the undeclared stage name "AMP2". -/
theorem unknown_gain_stage_handling_witness :
    (BladeRF.set_gain_named ⟨6, 5, 0⟩ 14 "AMP2" 0).1 = (⟨6, 5, 0⟩ : BladeRF.BDev) ∧
    (BladeRF.set_gain_named ⟨6, 5, 0⟩ 14 "AMP2" 0).2
      = BladeRF.GainRet.thrown
          "requested to set the gain of an unknown gain element" ∧
    HackRF.set_gain_named ⟨true, 0, 0, 0, false, 0, 0, 0, 0⟩ 14 "AMP2" HackRF.HwRes.ok
      = HackRF.set_gain ⟨true, 0, 0, 0, false, 0, 0, 0, 0⟩ 14 HackRF.HwRes.ok :=
  unknown_gain_stage_handling ⟨6, 5, 0⟩ ⟨true, 0, 0, 0, false, 0, 0, 0, 0⟩ 14
    "AMP2" 0 HackRF.HwRes.ok (by decide) (by decide)

namespace HackRF

/-- Reinterpretation of a byte as C `int8_t` (the `int8_t(...)` casts in the
LUT construction, hackrf_source_c.cc lines 131-132). -/
def int8OfByte (b : Nat) : ℤ :=
  if b % 256 < 128 then (b % 256 : ℤ) else (b % 256 : ℤ) - 256

/-- One entry of the 65536-entry lookup table, little-endian branch of the
constructor loop (lines 129-132): index `i` is the 16-bit word read from the
byte buffer; the low byte is I, the high byte is Q, each scaled by
`1.0f/128.0f`. -/
def lutEntry (i : Nat) : ℚ × ℚ :=
  ((int8OfByte (i % 256) : ℚ) * (1 / 128), (int8OfByte (i / 256) : ℚ) * (1 / 128))

/-- The `_lut` vector built by the constructor loop `for i in 0..0xffff`. -/
def lut : List (ℚ × ℚ) := (List.range 65536).map lutEntry

/-- Decoding one little-endian byte pair `(b0, b1)`: `work` reads the 16-bit
word `b0 + 256 * b1` from the buffer and outputs `_lut[word]` (line 369). -/
def lutLookup (b0 b1 : Nat) : ℚ × ℚ := lut.getD (b0 + 256 * b1) (0, 0)

theorem lut_getD_eq (i : Nat) (h : i < 65536) : lut.getD i (0, 0) = lutEntry i := by
  rw [lut, List.getD_eq_getElem?_getD, List.getElem?_map, List.getElem?_range h]
  rfl

end HackRF

namespace BladeRF

/-- Reinterpretation of a 16-bit pattern as C `int16_t`: the type of `si` and
`sq` in `read_task` (part_000 line 195). -/
def int16AsSigned (n : Nat) : ℤ :=
  if n % 65536 < 32768 then (n % 65536 : ℤ) else (n % 65536 : ℤ) - 65536

/-- Sign extension of `read_task` (part_000 lines 229-234): `si = word &
0xfff; if (si & 0x800) si |= 0xf000;` with `si` a 16-bit signed integer
(0xfff = 4095 masks to `% 4096`, bit 0x800 is `testBit 11`, 0xf000 =
61440). -/
def signExtend12 (w : Nat) : ℤ :=
  let v := w % 4096
  if v.testBit 11 then int16AsSigned (v ||| 61440) else (v : ℤ)

/-- The decoded value of one 12-bit channel word: `(float)si * (1.0f/2048.0f)`
(part_000 lines 236-237). -/
def decode12 (w : Nat) : ℚ := (signExtend12 w : ℚ) * (1 / 2048)

theorem lor_mul_two_pow :
    ∀ (k a b : Nat), a < 2 ^ k → a ||| b * 2 ^ k = a + b * 2 ^ k := by
  intro k
  induction k with
  | zero =>
    intro a b ha
    have h0 : a = 0 := by omega
    subst h0
    simp
  | succ k ih =>
    intro a b ha
    have hbit : Nat.bit (Nat.bodd a) (Nat.div2 a) = a := Nat.bit_decomp a
    have hb : b * 2 ^ (k + 1) = Nat.bit false (b * 2 ^ k) := by
      rw [Nat.bit_val, pow_succ, Bool.toNat_false]
      ring
    have hpow : 2 ^ (k + 1) = 2 ^ k * 2 := pow_succ 2 k
    have hdiv : Nat.div2 a < 2 ^ k := by
      rw [Nat.div2_val]
      rw [Nat.div_lt_iff_lt_mul (by norm_num)]
      rw [hpow] at ha
      exact ha
    rw [← hbit, hb, Nat.lor_bit, Bool.or_false, ih (Nat.div2 a) b hdiv,
      Nat.bit_val, Nat.bit_val, Nat.bit_val, Bool.toNat_false]
    ring

theorem lor_f000_of_bounded (v : Nat) (hv : v < 4096) :
    v ||| 61440 = v + 61440 := by
  have h := lor_mul_two_pow 12 v 15 (by norm_num; omega)
  norm_num at h
  exact h

end BladeRF

/-- C8: decoder reference values.  In the 8-bit little-endian mode every byte
pair `(b0, b1)` decodes through the LUT to `(int8(b0)/128, int8(b1)/128)`, so
the pair `(0x00, 0x80)` decodes to `(0.0, -1.0)`; in the 12-bit mode every
16-bit word's low 12 bits are sign-extended by replicating bit 11 (value
`low11 - 2048 * bit11`) and divided by 2048, so the word `0x801 = 2049`
decodes to `-2047/2048`. -/
theorem decoder_reference_values :
    (∀ b0 b1 : Nat, b0 < 256 → b1 < 256 →
        HackRF.lutLookup b0 b1
          = ((HackRF.int8OfByte b0 : ℚ) * (1 / 128),
              (HackRF.int8OfByte b1 : ℚ) * (1 / 128))) ∧
    HackRF.lutLookup 0 128 = ((0 : ℚ), (-1 : ℚ)) ∧
    (∀ w : Nat, BladeRF.decode12 w
        = (((w % 2048 : ℕ) : ℚ) - 2048 * (((w / 2048) % 2 : ℕ) : ℚ)) * (1 / 2048)) ∧
    BladeRF.decode12 2049 = -(2047 / 2048) := by
  have h8 : ∀ b0 b1 : Nat, b0 < 256 → b1 < 256 →
      HackRF.lutLookup b0 b1
        = ((HackRF.int8OfByte b0 : ℚ) * (1 / 128),
            (HackRF.int8OfByte b1 : ℚ) * (1 / 128)) := by
    intro b0 b1 h0 h1
    have hi : b0 + 256 * b1 < 65536 := by omega
    have e1 : (b0 + 256 * b1) % 256 = b0 := by omega
    have e2 : (b0 + 256 * b1) / 256 = b1 := by omega
    rw [HackRF.lutLookup, HackRF.lut_getD_eq _ hi, HackRF.lutEntry, e1, e2]
  have hsign : ∀ w : Nat, BladeRF.signExtend12 w
      = ((w % 2048 : ℕ) : ℤ) - 2048 * (((w / 2048) % 2 : ℕ) : ℤ) := by
    intro w
    simp only [BladeRF.signExtend12, Nat.testBit_to_div_mod, decide_eq_true_eq,
      show (2 : ℕ) ^ 11 = 2048 from by norm_num]
    by_cases hge : 2048 ≤ w % 4096
    · rw [if_pos (by omega), BladeRF.lor_f000_of_bounded _ (by omega),
        BladeRF.int16AsSigned, if_neg (by omega)]
      omega
    · rw [if_neg (by omega)]
      omega
  have h12 : ∀ w : Nat, BladeRF.decode12 w
      = (((w % 2048 : ℕ) : ℚ) - 2048 * (((w / 2048) % 2 : ℕ) : ℚ)) * (1 / 2048) := by
    intro w
    rw [BladeRF.decode12, hsign w, Int.cast_sub, Int.cast_mul, Int.cast_natCast,
      Int.cast_natCast, Int.cast_ofNat]
  refine ⟨h8, ?_, h12, ?_⟩
  · rw [h8 0 128 (by norm_num) (by norm_num)]
    norm_num [HackRF.int8OfByte]
  · rw [h12 2049]
    norm_num

/-- Witness for C8 at the byte pair `(0x00, 0x80)` and the word `0x801`. -/
theorem decoder_reference_values_witness :
    HackRF.lutLookup 0 128
      = ((HackRF.int8OfByte 0 : ℚ) * (1 / 128),
          (HackRF.int8OfByte 128 : ℚ) * (1 / 128)) ∧
    BladeRF.decode12 2049
      = (((2049 % 2048 : ℕ) : ℚ) - 2048 * (((2049 / 2048) % 2 : ℕ) : ℚ)) * (1 / 2048) :=
  ⟨decoder_reference_values.1 0 128 (by norm_num) (by norm_num),
    decoder_reference_values.2.2.1 2049⟩

namespace HackRF

/-- State of the process-wide libhackrf usage accounting: the static counter
`hackrf_source_c::_usage` (a C `int`, modelled as ℤ), whether the library is
currently initialized (`hackrf_init` called without a matching
`hackrf_exit`), and how many times each has been called.  All mutation in the
source happens inside `boost::mutex::scoped_lock lock(_usage_mutex)` blocks,
so each block is modelled as one atomic transition. -/
structure LibUsage where
  usage : ℤ
  inited : Bool
  initCalls : Nat
  exitCalls : Nat
deriving DecidableEq

/-- The acquire block (constructor lines 139-146, `get_devices` lines
403-410): under `_usage_mutex`, `hackrf_init()` is called iff `_usage == 0`,
then `_usage++`. -/
def usageAcquire (s : LibUsage) : LibUsage :=
  let s1 := if s.usage = 0
    then { s with inited := true, initCalls := s.initCalls + 1 }
    else s
  { s1 with usage := s1.usage + 1 }

/-- The release block (destructor lines 260-267, `get_devices` lines
462-469): under `_usage_mutex`, `_usage--`, then `hackrf_exit()` is called
iff the decremented `_usage == 0`. -/
def usageRelease (s : LibUsage) : LibUsage :=
  let s1 := { s with usage := s.usage - 1 }
  if s1.usage = 0
    then { s1 with inited := false, exitCalls := s1.exitCalls + 1 }
    else s1

/-- The invariant: the shared library is initialized iff the usage count is
positive. -/
def usageInv (s : LibUsage) : Prop := (s.inited = true ↔ 0 < s.usage)

instance (s : LibUsage) : Decidable (usageInv s) := by
  unfold usageInv
  infer_instance

/-- C10: the shared libhackrf library is initialized exactly when the usage
count transitions from 0 to 1 and torn down exactly when it transitions from
1 to 0 (each mutation happening inside one `_usage_mutex` critical section,
modelled as an atomic step); every acquire (constructor, `get_devices`
entry) and release (destructor, `get_devices` exit) preserves the invariant
that the library is initialized iff the usage count is positive, as does the
acquire/release pair performed by `get_devices`. -/
theorem usage_refcount_invariant (s : LibUsage) :
    (usageInv s → usageInv (usageAcquire s)) ∧
    (usageInv s → usageInv (usageRelease s)) ∧
    ((usageAcquire s).initCalls
      = s.initCalls + (if s.usage = 0 then 1 else 0)) ∧
    ((usageRelease s).exitCalls
      = s.exitCalls + (if s.usage = 1 then 1 else 0)) ∧
    (usageInv s → usageInv (usageRelease (usageAcquire s))) := by
  refine ⟨?_, ?_, ?_, ?_, ?_⟩
  · intro hinv
    by_cases h0 : s.usage = 0
    · simp only [usageAcquire, usageInv, h0, if_pos]
      simp
    · simp only [usageAcquire, usageInv, if_neg h0]
      unfold usageInv at hinv
      constructor
      · intro hi
        have := hinv.mp hi
        omega
      · intro hpos
        apply hinv.mpr
        by_contra hcon
        push_neg at hcon
        have : s.inited = false := by
          cases hib : s.inited with
          | false => rfl
          | true => exact absurd (hinv.mp hib) (by omega)
        omega
  · intro hinv
    unfold usageInv at hinv ⊢
    unfold usageRelease
    by_cases h1 : s.usage - 1 = 0
    · simp only [h1, if_pos]
      simp
    · simp only [if_neg h1]
      constructor
      · intro hi
        have := hinv.mp hi
        omega
      · intro hpos
        apply hinv.mpr
        omega
  · unfold usageAcquire
    by_cases h0 : s.usage = 0
    · simp [h0]
    · simp [h0]
  · unfold usageRelease
    by_cases h1 : s.usage = 1
    · simp only [h1, if_pos]
      norm_num
    · have h1m : ¬ (s.usage - 1 = 0) := by omega
      simp [h1, h1m]
  · intro hinv
    unfold usageInv at hinv ⊢
    unfold usageAcquire usageRelease
    by_cases h0 : s.usage = 0
    · simp [h0]
    · have hne : ¬ (s.usage + 1 - 1 = 0) := by omega
      simpa [h0, hne] using hinv

/-- Witness for C10: from a fresh process (usage 0, library not initialized)
an acquire initializes the library exactly once; from a single-user state a
release tears it down exactly once; a `get_devices` acquire/release pair from
the fresh state restores it. -/
theorem usage_refcount_invariant_witness :
    usageInv (usageAcquire ⟨0, false, 0, 0⟩) ∧
    usageInv (usageRelease ⟨1, true, 1, 0⟩) ∧
    (usageAcquire ⟨0, false, 0, 0⟩).initCalls
      = 0 + (if (0 : ℤ) = 0 then 1 else 0) ∧
    (usageRelease ⟨1, true, 1, 0⟩).exitCalls
      = 0 + (if (1 : ℤ) = 1 then 1 else 0) ∧
    usageInv (usageRelease (usageAcquire ⟨0, false, 0, 0⟩)) := by
  have h1 := usage_refcount_invariant ⟨0, false, 0, 0⟩
  have h2 := usage_refcount_invariant ⟨1, true, 1, 0⟩
  exact ⟨h1.1 (by decide), h2.2.1 (by decide), h1.2.2.1, h2.2.2.2.1,
    h1.2.2.2.2 (by decide)⟩

end HackRF
